import Mathlib

/-!
Verification of thermite (src/main.rs): the address-sequencing arms of
run_io's loop, the full-period LCG permutation generator used by Random100
mode, the xor_scramble buffer mutator, error propagation in the I/O loop,
and the liveness watchdog.
-/

namespace Thermite

/-- Ceil-division-by-two recursion computing the smallest power of two that is
at least n; fuel-bounded so that it is structural (n itself is enough fuel). -/
def nptAux : Nat → Nat → Nat
  | 0, _ => 1
  | fuel+1, n => if n ≤ 1 then 1 else 2 * nptAux fuel ((n + 1) / 2)

/-- Smallest power of two that is at least n (Rust u64::next_power_of_two,
used as `(end_block - start_block).next_power_of_two()` at src/main.rs:262;
it maps 0 to 1). -/
def nextPowerOfTwo (n : Nat) : Nat := nptAux n n

/-- Modelled from the spec: the repository's lcg.rs module (declared `mod lcg`
and used as `lcg::LCG::new(seed, power2)` at src/main.rs:263) is not under
src/. Spec section 4.2: state x; step x := (a * x + c) mod M; multiplier a
congruent to 1 mod 4, increment c odd, modulus M a power of two, seed in
[0, M). -/
structure LCG where
  x : Nat
  a : Nat
  c : Nat
  m : Nat
deriving DecidableEq

/-- Modelled from the spec: one LCG step, x := (a * x + c) mod M. -/
def LCG.step (g : LCG) : LCG := { g with x := (g.a * g.x + g.c) % g.m }

/-- Modelled from the spec: generator.next() steps the LCG and yields the new
value. -/
def LCG.next (g : LCG) : Nat × LCG :=
  let g2 := g.step
  (g2.x, g2)

/-- The generator stepped n times. -/
def LCG.iter (g : LCG) : Nat → LCG
  | 0 => g
  | n+1 => (g.iter n).step

/-- The first n values drawn from g (successive generator.next() results). -/
def lcgOutputs (g : LCG) (n : Nat) : List Nat :=
  (List.range n).map (fun i => (g.iter (i+1)).x)

/-- The rejection loop of Random100 mode (src/main.rs:297-300): draw a value,
and redraw while the value is >= end_block. Fuel-bounded; the source loop is
unbounded but terminates within one full period of the generator. -/
def rejectionDraw (eb : Nat) : Nat → LCG → Option (Nat × LCG)
  | 0, _ => none
  | fuel+1, g =>
    let p := g.next
    if p.1 < eb then some p
    else rejectionDraw eb fuel p.2

/-- Offset chosen by Random100 mode (src/main.rs:301):
(random * blocksize) + (start_block * blocksize). -/
def chosenOffset (bs sb v : Nat) : Nat := v * bs + sb * bs

/-- The Random100 arm of run_io's loop (src/main.rs:293-302 and 313): break
when iterations == end_block, otherwise draw through the rejection loop and
record the chosen offset; iterations advances by 1 + blockskip. Yields the
list of offsets written, or none when fuel runs out (the source loop is
unbounded) or a rejection loop exhausts its fuel. -/
def random100Run (bs sb eb skip : Nat) : Nat → Nat → LCG → Option (List Nat)
  | 0, _, _ => none
  | fuel+1, iterations, g =>
    if iterations = eb then some []
    else
      match rejectionDraw eb g.m g with
      | none => none
      | some (v, g2) =>
        (random100Run bs sb eb skip fuel (iterations + 1 + skip) g2).map
          (fun l => chosenOffset bs sb v :: l)

/-- The Sequential arm of run_io's loop (src/main.rs:281-286 and 313):
offset = blocksize * iterations + start_block * blocksize, break once the
offset exceeds end_block * blocksize; iterations advances by 1 + blockskip.
Yields the list of offsets written. -/
def sequentialRun (bs sb eb skip : Nat) : Nat → Nat → Option (List Nat)
  | 0, _ => none
  | fuel+1, iterations =>
    let off := bs * iterations + sb * bs
    if off > eb * bs then some []
    else (sequentialRun bs sb eb skip fuel (iterations + 1 + skip)).map (fun l => off :: l)

/-- The SequentialReverse arm of run_io's loop (src/main.rs:287-292 and 313):
offset = blocksize * (end_block - 1) - blocksize * iterations, break once the
offset is at most start_block * blocksize; iterations advances by
1 + blockskip. The u64 subtraction panics on underflow, modelled as none. -/
def sequentialReverseRun (bs sb eb skip : Nat) : Nat → Nat → Option (List Nat)
  | 0, _ => none
  | fuel+1, iterations =>
    if bs * iterations ≤ bs * (eb - 1) then
      let off := bs * (eb - 1) - bs * iterations
      if off ≤ sb * bs then some []
      else
        (sequentialReverseRun bs sb eb skip fuel (iterations + 1 + skip)).map (fun l => off :: l)
    else none

/-- One page of xor_scramble (src/main.rs:326-333): XOR the byte at
this + p_off with the byte at next + p_off, storing at this + p_off, where
this = offset & (pagesize - 1) and next = (offset + 1) & (pagesize - 1).
An out-of-bounds index panics in Rust, modelled as none. -/
def xorPage (offset pagesize pOff : Nat) (d : List Nat) : Option (List Nat) :=
  match d[(offset &&& (pagesize - 1)) + pOff]?, d[((offset + 1) &&& (pagesize - 1)) + pOff]? with
  | some b1, some b2 =>
    some (d.set ((offset &&& (pagesize - 1)) + pOff) (b1 ^^^ b2))
  | _, _ => none

/-- xor_scramble (src/main.rs:319-340): with pagesize nonzero, mutate each of
the blocksize / pagesize pages at offsets x * pagesize; with pagesize zero,
mutate the whole buffer once using blocksize as the mask width. Bytes are
modelled as Nat (XOR never grows past a byte). -/
def xor_scramble (data : List Nat) (pagesize offset : Nat) : Option (List Nat) :=
  if pagesize ≠ 0 then
    (((List.range (data.length / pagesize)).map (fun x => x * pagesize)).foldl
      (fun acc pOff => acc.bind (xorPage offset pagesize pOff)) (some data))
  else
    match data[offset &&& (data.length - 1)]?, data[(offset + 1) &&& (data.length - 1)]? with
    | some b1, some b2 =>
      some (data.set (offset &&& (data.length - 1)) (b1 ^^^ b2))
    | _, _ => none

/-- The per-target write loop of one iteration of run_io (src/main.rs:305-310):
for each target in order, seek then write, stopping at the first failure
(try! propagates the error). Yields the list of targets to which a write was
issued together with the outcome. -/
def writeTargets {ε : Type} (seekRes writeRes : Nat → Except ε Unit) :
    List Nat → List Nat × Except ε Unit
  | [] => ([], Except.ok ())
  | t :: ts =>
    match seekRes t with
    | Except.error e => ([], Except.error e)
    | Except.ok _ =>
      match writeRes t with
      | Except.error e => ([t], Except.error e)
      | Except.ok _ =>
        let r := writeTargets seekRes writeRes ts
        (t :: r.1, r.2)

/-- run_io's loop in Sequential mode with explicit seek and write outcomes per
(iteration counter, target index): a failing seek or write ends the loop at
once with that error (try! at src/main.rs:306-307, propagated through run_io's
Result at 316); otherwise the loop continues. Yields the (iteration, target)
pairs to which writes were issued and the final outcome. -/
def runIoLoop {ε : Type} (seekRes writeRes : Nat → Nat → Except ε Unit)
    (nTargets bs sb eb skip : Nat) : Nat → Nat → List (Nat × Nat) × Except ε Unit
  | 0, _ => ([], Except.ok ())
  | fuel+1, iterations =>
    if bs * iterations + sb * bs > eb * bs then ([], Except.ok ())
    else
      let w := writeTargets (seekRes iterations) (writeRes iterations) (List.range nTargets)
      match w.2 with
      | Except.error e => (w.1.map (fun t => (iterations, t)), Except.error e)
      | Except.ok _ =>
        let r := runIoLoop seekRes writeRes nTargets bs sb eb skip fuel (iterations + 1 + skip)
        (w.1.map (fun t => (iterations, t)) ++ r.1, r.2)

/-- Modelled from the spec: the repository's watchdog.rs module (declared
`mod watchdog` and spawned as `watchdog::watch(shared, 2, 3)` at
src/main.rs:266-270) is not under src/. Discrete time; upd t says whether the
orchestrator updated the shared LivenessTimestamp at time t. lastTimestamp is
the time of the most recent update at or before t (0 when there is none). -/
def lastTimestamp (upd : Nat → Bool) (t : Nat) : Nat :=
  (List.range (t+1)).foldl (fun acc j => if upd j then j else acc) 0

/-- Modelled from the spec: the watchdog polls at every multiple of
pollInterval and terminates the process when now - lastTimestamp exceeds
timeoutSeconds. -/
def watchdogFires (upd : Nat → Bool) (pollInterval timeoutSeconds t : Nat) : Bool :=
  t % pollInterval == 0 && timeoutSeconds < t - lastTimestamp upd t

/-- Geometric sum 1 + a + ... + a^(n-1), the increment multiplier in the
closed form of n LCG steps. -/
def geomSum (a : Nat) : Nat → Nat
  | 0 => 0
  | n+1 => 1 + a * geomSum a n

/-! ### nextPowerOfTwo is a power of two at least n -/

theorem nptAux_spec : ∀ (fuel n : Nat), n ≤ fuel →
    (∃ k, nptAux fuel n = 2 ^ k) ∧ n ≤ nptAux fuel n := by
  intro fuel
  induction fuel with
  | zero =>
    intro n hn
    exact ⟨⟨0, rfl⟩, by omega⟩
  | succ f ih =>
    intro n hn
    by_cases h1 : n ≤ 1
    · simp only [nptAux, if_pos h1]
      exact ⟨⟨0, rfl⟩, by omega⟩
    · simp only [nptAux, if_neg h1]
      have hrec : (n + 1) / 2 ≤ f := by omega
      obtain ⟨⟨k, hk⟩, hle⟩ := ih ((n + 1) / 2) hrec
      refine ⟨⟨k + 1, by rw [hk]; ring⟩, ?_⟩
      omega

theorem nextPowerOfTwo_pow (n : Nat) : ∃ k, nextPowerOfTwo n = 2 ^ k :=
  (nptAux_spec n n le_rfl).1

theorem le_nextPowerOfTwo (n : Nat) : n ≤ nextPowerOfTwo n :=
  (nptAux_spec n n le_rfl).2

/-! ### Geometric sums of a multiplier congruent to 1 mod 4 -/

theorem geomSum_mod_two {a : Nat} (ha : a % 2 = 1) : ∀ n, geomSum a n % 2 = n % 2
  | 0 => rfl
  | n+1 => by
    have ih := geomSum_mod_two ha n
    have h1 : a * geomSum a n % 2 = n % 2 := by
      rw [Nat.mul_mod, ha, ih]
      omega
    simp only [geomSum]
    omega

theorem geomSum_add (a m n : Nat) :
    geomSum a (m + n) = geomSum a m + a ^ m * geomSum a n := by
  induction m with
  | zero => simp [geomSum]
  | succ k ih =>
    have hshift : k + 1 + n = (k + n) + 1 := by omega
    rw [hshift]
    simp only [geomSum]
    rw [ih]
    ring

theorem pow_mod_four {a : Nat} (ha : a % 4 = 1) (n : Nat) : a ^ n % 4 = 1 := by
  induction n with
  | zero => rfl
  | succ k ih => rw [Nat.pow_succ, Nat.mul_mod, ih, ha]

theorem geomSum_two_pow {a : Nat} (ha : a % 4 = 1) :
    ∀ (e u : Nat), Odd u → ∃ w, Odd w ∧ geomSum a (2 ^ e * u) = 2 ^ e * w := by
  intro e
  induction e with
  | zero =>
    intro u hu
    refine ⟨geomSum a u, ?_, by simp⟩
    have h2 : a % 2 = 1 := by omega
    rw [Nat.odd_iff] at hu ⊢
    rw [geomSum_mod_two h2 u, hu]
  | succ k ih =>
    intro u hu
    obtain ⟨w, hw, hs⟩ := ih u hu
    have hsplit : 2 ^ (k+1) * u = 2 ^ k * u + 2 ^ k * u := by ring
    rw [hsplit, geomSum_add, hs]
    have hpow : a ^ (2 ^ k * u) % 4 = 1 := pow_mod_four ha _
    obtain ⟨q, hq⟩ : ∃ q, a ^ (2 ^ k * u) = 4 * q + 1 := ⟨a ^ (2 ^ k * u) / 4, by omega⟩
    refine ⟨w * (2 * q + 1), hw.mul (by rw [Nat.odd_iff]; omega), ?_⟩
    rw [hq]
    ring

theorem not_two_pow_dvd_geomSum_mul {a d k b : Nat} (ha : a % 4 = 1) (hd : 0 < d)
    (hlt : d < 2 ^ k) (hb : Odd b) : ¬ 2 ^ k ∣ geomSum a d * b := by
  intro hdvd
  obtain ⟨e, u, hu, rfl⟩ := Nat.exists_eq_two_pow_mul_odd (by omega : d ≠ 0)
  obtain ⟨w, hw, hs⟩ := geomSum_two_pow ha e u hu
  rw [hs, Nat.mul_assoc] at hdvd
  have hcop : Nat.Coprime (2 ^ k) (w * b) :=
    Nat.Coprime.pow_left k (Nat.coprime_two_left.mpr (hw.mul hb))
  have h2 : 2 ^ k ∣ 2 ^ e := hcop.dvd_of_dvd_mul_right hdvd
  have hke : k ≤ e := (Nat.pow_dvd_pow_iff_le_right (by omega)).mp h2
  have h3 : 2 ^ k ≤ 2 ^ e := Nat.pow_le_pow_right (by omega) hke
  have h4 : 2 ^ e ≤ 2 ^ e * u := Nat.le_mul_of_pos_right _ hu.pos
  omega

theorem geomSum_mul_pred {a : Nat} (ha : 1 ≤ a) : ∀ d, (a - 1) * geomSum a d + 1 = a ^ d
  | 0 => by simp [geomSum]
  | d+1 => by
    have ih := geomSum_mul_pred ha d
    obtain ⟨b, rfl⟩ : ∃ b, a = b + 1 := ⟨a - 1, by omega⟩
    simp only [Nat.add_sub_cancel] at ih ⊢
    simp only [geomSum]
    calc b * (1 + (b+1) * geomSum (b+1) d) + 1
        = (b+1) * (b * geomSum (b+1) d + 1) := by ring
      _ = (b+1) * (b+1) ^ d := by rw [ih]
      _ = (b+1) ^ (d+1) := by ring

theorem lcg_shift_eq {a : Nat} (ha : 1 ≤ a) (x c n d : Nat) :
    a ^ (n + d) * x + c * geomSum a (n + d)
      = a ^ n * x + c * geomSum a n + geomSum a d * ((a - 1) * x + c) * a ^ n := by
  rw [geomSum_add, pow_add]
  have h := geomSum_mul_pred ha d
  obtain ⟨b, rfl⟩ : ∃ b, a = b + 1 := ⟨a - 1, by omega⟩
  simp only [Nat.add_sub_cancel] at h ⊢
  rw [← h]
  ring

/-! ### Closed form and injectivity of the LCG iterates -/

theorem LCG.iter_a (g : LCG) : ∀ n, (g.iter n).a = g.a
  | 0 => rfl
  | n+1 => by rw [LCG.iter, LCG.step]; exact g.iter_a n

theorem LCG.iter_c (g : LCG) : ∀ n, (g.iter n).c = g.c
  | 0 => rfl
  | n+1 => by rw [LCG.iter, LCG.step]; exact g.iter_c n

theorem LCG.iter_m (g : LCG) : ∀ n, (g.iter n).m = g.m
  | 0 => rfl
  | n+1 => by rw [LCG.iter, LCG.step]; exact g.iter_m n

theorem LCG.iter_add (g : LCG) (a b : Nat) : g.iter (a + b) = (g.iter a).iter b := by
  induction b with
  | zero => rfl
  | succ k ih => rw [← Nat.add_assoc, LCG.iter, ih, LCG.iter]

theorem LCG.iter_one (g : LCG) : g.iter 1 = g.step := rfl

theorem lcg_iter_x_lt {g : LCG} (hm : 0 < g.m) (n : Nat) : (g.iter (n+1)).x < g.m := by
  show ((g.iter n).step).x < g.m
  rw [LCG.step]
  simp only [LCG.iter_m]
  exact Nat.mod_lt _ hm

theorem lcg_iter_x (g : LCG) (hx : g.x < g.m) :
    ∀ n, (g.iter n).x = (g.a ^ n * g.x + g.c * geomSum g.a n) % g.m := by
  intro n
  induction n with
  | zero =>
    simp [LCG.iter, geomSum, Nat.mod_eq_of_lt hx]
  | succ k ih =>
    have hstep : (g.iter (k+1)).x = (g.a * (g.iter k).x + g.c) % g.m := by
      show ((g.iter k).step).x = _
      rw [LCG.step]
      simp only [LCG.iter_a, LCG.iter_c, LCG.iter_m]
    rw [hstep, ih]
    have h1 : (g.a * ((g.a ^ k * g.x + g.c * geomSum g.a k) % g.m) + g.c) % g.m
        = (g.a * (g.a ^ k * g.x + g.c * geomSum g.a k) + g.c) % g.m := by
      conv_lhs => rw [Nat.add_mod, Nat.mul_mod, Nat.mod_mod_of_dvd _ (dvd_refl g.m)]
      conv_rhs => rw [Nat.add_mod, Nat.mul_mod]
    rw [h1]
    congr 1
    simp only [geomSum]
    ring

theorem add_mod_cancel_iff {A D m : Nat} (hm : 0 < m) :
    (A + D) % m = A % m ↔ D % m = 0 := by
  constructor
  · intro h
    rw [Nat.add_mod] at h
    have h1 : A % m < m := Nat.mod_lt _ hm
    have h2 : D % m < m := Nat.mod_lt _ hm
    rcases Nat.lt_or_ge (A % m + D % m) m with hlt | hge
    · rw [Nat.mod_eq_of_lt hlt] at h
      omega
    · have h3 : (A % m + D % m) % m = A % m + D % m - m := by
        rw [Nat.mod_eq_sub_mod hge, Nat.mod_eq_of_lt (by omega)]
      omega
  · intro h
    rw [Nat.add_mod, h, Nat.add_zero, Nat.mod_mod_of_dvd _ (dvd_refl m)]

theorem lcg_iter_x_ne {g : LCG} {k : Nat} (hm : g.m = 2 ^ k) (ha : g.a % 4 = 1)
    (hc : g.c % 2 = 1) (hx : g.x < g.m) (d : Nat) (hd : 0 < d) (hdlt : d < 2 ^ k)
    (n : Nat) : (g.iter (n + d)).x ≠ (g.iter n).x := by
  have ha1 : 1 ≤ g.a := by omega
  have hmpos : 0 < g.m := by rw [hm]; exact Nat.pos_pow_of_pos _ (by omega)
  rw [lcg_iter_x g hx, lcg_iter_x g hx, lcg_shift_eq ha1]
  intro heq
  have hD : (geomSum g.a d * ((g.a - 1) * g.x + g.c) * g.a ^ n) % g.m = 0 :=
    (add_mod_cancel_iff hmpos).mp heq
  have hodd : Odd (((g.a - 1) * g.x + g.c) * g.a ^ n) := by
    have h1 : (g.a - 1) % 2 = 0 := by omega
    have h2 : (g.a - 1) * g.x % 2 = 0 := by rw [Nat.mul_mod, h1]; simp
    have h3 : ((g.a - 1) * g.x + g.c) % 2 = 1 := by omega
    have h5 : g.a ^ n % 2 = 1 := by
      rw [Nat.pow_mod]
      have : g.a % 2 = 1 := by omega
      rw [this, Nat.one_pow]
    rw [Nat.odd_iff, Nat.mul_mod, h3, h5]
  refine not_two_pow_dvd_geomSum_mul ha hd hdlt hodd ?_
  rw [← hm, ← Nat.mul_assoc]
  exact Nat.dvd_iff_mod_eq_zero.mpr hD

/-! ### One full period of the generator is a permutation of the range -/

theorem lcgOutputs_nodup {g : LCG} {k : Nat} (hm : g.m = 2 ^ k) (ha : g.a % 4 = 1)
    (hc : g.c % 2 = 1) (hx : g.x < g.m) : (lcgOutputs g (2 ^ k)).Nodup := by
  unfold lcgOutputs
  refine List.Nodup.map_on ?_ (List.nodup_range _)
  intro i hi j hj hij
  rw [List.mem_range] at hi hj
  rcases Nat.lt_trichotomy i j with hlt | heq | hgt
  · exfalso
    have hne := lcg_iter_x_ne hm ha hc hx (j - i) (by omega) (by omega) (i + 1)
    rw [show i + 1 + (j - i) = j + 1 by omega] at hne
    exact hne hij.symm
  · exact heq
  · exfalso
    have hne := lcg_iter_x_ne hm ha hc hx (i - j) (by omega) (by omega) (j + 1)
    rw [show j + 1 + (i - j) = i + 1 by omega] at hne
    exact hne hij

theorem lcgOutputs_perm {g : LCG} {k : Nat} (hm : g.m = 2 ^ k) (ha : g.a % 4 = 1)
    (hc : g.c % 2 = 1) (hx : g.x < g.m) : (lcgOutputs g (2 ^ k)).Perm (List.range (2 ^ k)) := by
  have hnodup := lcgOutputs_nodup hm ha hc hx
  have hmpos : 0 < g.m := by rw [hm]; exact Nat.pos_pow_of_pos _ (by omega)
  have hsub : lcgOutputs g (2 ^ k) ⊆ List.range (2 ^ k) := by
    intro v hv
    unfold lcgOutputs at hv
    rw [List.mem_map] at hv
    obtain ⟨i, _, rfl⟩ := hv
    rw [List.mem_range, ← hm]
    exact lcg_iter_x_lt hmpos i
  refine (List.subperm_of_subset hnodup hsub).perm_of_length_le ?_
  simp [lcgOutputs]

theorem range_filter_lt {L M : Nat} (h : L ≤ M) :
    (List.range M).filter (fun v => decide (v < L)) = List.range L := by
  obtain ⟨r, rfl⟩ : ∃ r, M = L + r := ⟨M - L, by omega⟩
  rw [List.range_add, List.filter_append]
  have h1 : (List.range L).filter (fun v => decide (v < L)) = List.range L := by
    rw [List.filter_eq_self]
    intro a ha
    rw [List.mem_range] at ha
    simpa using ha
  have h2 : ((List.range r).map (L + ·)).filter (fun v => decide (v < L)) = [] := by
    rw [List.filter_eq_nil_iff]
    intro a ha
    rw [List.mem_map] at ha
    obtain ⟨b, _, rfl⟩ := ha
    simp
  rw [h1, h2, List.append_nil]

theorem lcg_filter_perm {g : LCG} {k L : Nat} (hm : g.m = 2 ^ k) (ha : g.a % 4 = 1)
    (hc : g.c % 2 = 1) (hx : g.x < g.m) (hL : L ≤ 2 ^ k) :
    ((lcgOutputs g (2 ^ k)).filter (fun v => decide (v < L))).Perm (List.range L) := by
  have hperm := (lcgOutputs_perm hm ha hc hx).filter (fun v => decide (v < L))
  rwa [range_filter_lt hL] at hperm

/-! ### The rejection loop consumes a prefix of the output stream -/

theorem lcgOutputs_succ_shift (g : LCG) (n : Nat) :
    lcgOutputs g (n+1) = g.step.x :: lcgOutputs g.step n := by
  unfold lcgOutputs
  rw [List.range_succ_eq_map, List.map_cons, List.map_map]
  refine congrArg₂ _ rfl ?_
  refine List.map_congr_left ?_
  intro i _
  show (g.iter (i+1+1)).x = (g.step.iter (i+1)).x
  rw [show i+1+1 = 1 + (i+1) by omega, LCG.iter_add g 1 (i+1), LCG.iter_one]

theorem lcgOutputs_add (g : LCG) (n m : Nat) :
    lcgOutputs g (n + m) = lcgOutputs g n ++ lcgOutputs (g.iter n) m := by
  unfold lcgOutputs
  rw [List.range_add, List.map_append, List.map_map]
  congr 1
  refine List.map_congr_left ?_
  intro i _
  show (g.iter (n + i + 1)).x = ((g.iter n).iter (i+1)).x
  rw [show n + i + 1 = n + (i + 1) by omega, LCG.iter_add]

theorem rejectionDraw_eq {eb : Nat} :
    ∀ (fuel : Nat) (g : LCG) (v : Nat) (g2 : LCG),
      rejectionDraw eb fuel g = some (v, g2) →
      ∃ j, j < fuel ∧ g2 = g.iter (j+1) ∧ v = g2.x ∧
        (lcgOutputs g (j+1)).filter (fun w => decide (w < eb)) = [v] := by
  intro fuel
  induction fuel with
  | zero =>
    intro g v g2 h
    simp [rejectionDraw] at h
  | succ f ih =>
    intro g v g2 h
    simp only [rejectionDraw, LCG.next] at h
    by_cases hacc : g.step.x < eb
    · rw [if_pos hacc] at h
      have hpair := Option.some.inj h
      have hv : g.step.x = v := congrArg Prod.fst hpair
      have hg2 : g.step = g2 := congrArg Prod.snd hpair
      subst hv
      subst hg2
      refine ⟨0, by omega, (LCG.iter_one g).symm, rfl, ?_⟩
      have h1 : lcgOutputs g 1 = [g.step.x] := rfl
      rw [h1, List.filter_cons]
      simp [hacc]
    · rw [if_neg hacc] at h
      obtain ⟨j, hj, hg2, hv, hfilt⟩ := ih g.step v g2 h
      refine ⟨j + 1, by omega, ?_, hv, ?_⟩
      · rw [hg2, show j + 1 + 1 = 1 + (j + 1) by omega, LCG.iter_add g 1 (j+1), LCG.iter_one]
      · rw [lcgOutputs_succ_shift, List.filter_cons]
        have hdec : decide (g.step.x < eb) = false := by simpa using hacc
        rw [hdec]
        simpa using hfilt

theorem rejectionDraw_lt {eb fuel : Nat} {g g2 : LCG} {v : Nat}
    (h : rejectionDraw eb fuel g = some (v, g2)) : v < eb := by
  obtain ⟨j, _, _, _, hfilt⟩ := rejectionDraw_eq fuel g v g2 h
  have hv : v ∈ (lcgOutputs g (j+1)).filter (fun w => decide (w < eb)) := by
    rw [hfilt]
    exact List.mem_singleton_self v
  simpa using List.of_mem_filter hv

theorem rejectionDraw_some_of_exists {eb : Nat} :
    ∀ (fuel : Nat) (g : LCG), (∃ i, i < fuel ∧ (g.iter (i+1)).x < eb) →
      ∃ v g2, rejectionDraw eb fuel g = some (v, g2) := by
  intro fuel
  induction fuel with
  | zero =>
    intro g hex
    obtain ⟨i, hi, _⟩ := hex
    omega
  | succ f ih =>
    intro g hex
    obtain ⟨i, hi, hacc⟩ := hex
    simp only [rejectionDraw, LCG.next]
    by_cases h0 : g.step.x < eb
    · exact ⟨g.step.x, g.step, by rw [if_pos h0]⟩
    · rw [if_neg h0]
      apply ih
      rcases i with _ | i2
      · exact absurd hacc h0
      · refine ⟨i2, by omega, ?_⟩
        have hshift : g.step.iter (i2 + 1) = g.iter (i2 + 1 + 1) := by
          rw [show i2 + 1 + 1 = 1 + (i2 + 1) by omega, LCG.iter_add g 1 (i2+1), LCG.iter_one]
        rw [hshift]
        exact hacc

theorem rejectionDraw_isSome {g : LCG} {k eb : Nat} (hm : g.m = 2 ^ k)
    (ha : g.a % 4 = 1) (hc : g.c % 2 = 1) (hx : g.x < g.m) (heb : 1 ≤ eb) :
    ∃ v g2, rejectionDraw eb (2 ^ k) g = some (v, g2) := by
  apply rejectionDraw_some_of_exists
  have hperm := lcgOutputs_perm hm ha hc hx
  have h0 : (0:Nat) ∈ List.range (2 ^ k) := by
    rw [List.mem_range]
    exact Nat.pos_pow_of_pos _ (by omega)
  have h1 : (0:Nat) ∈ lcgOutputs g (2 ^ k) := hperm.mem_iff.mpr h0
  unfold lcgOutputs at h1
  rw [List.mem_map] at h1
  obtain ⟨i, hi, hx0⟩ := h1
  rw [List.mem_range] at hi
  exact ⟨i, hi, by rw [hx0]; omega⟩

/-! ### The Random100 run draws exactly the accepted prefix of the stream -/

theorem random100Run_spec (bs sb : Nat) {eb k : Nat} (heb : 1 ≤ eb) :
    ∀ (cnt : Nat) (g : LCG) (i : Nat), g.m = 2 ^ k → g.a % 4 = 1 → g.c % 2 = 1 →
      g.x < g.m → i + cnt = eb →
      ∃ n, random100Run bs sb eb 0 (cnt+1) i g
          = some (((lcgOutputs g n).filter (fun w => decide (w < eb))).map (chosenOffset bs sb))
        ∧ ((lcgOutputs g n).filter (fun w => decide (w < eb))).length = cnt
        ∧ (n = 0 ∨ (g.iter n).x < eb) := by
  intro cnt
  induction cnt with
  | zero =>
    intro g i hm ha hc hx hie
    refine ⟨0, ?_, rfl, Or.inl rfl⟩
    have hieq : i = eb := by omega
    simp [random100Run, hieq, lcgOutputs]
  | succ c ih =>
    intro g i hm ha hc hx hie
    have hine : i ≠ eb := by omega
    have hsome : ∃ v g2, rejectionDraw eb g.m g = some (v, g2) := by
      rw [hm]
      exact rejectionDraw_isSome hm ha hc hx heb
    obtain ⟨v, g2, hdraw⟩ := hsome
    obtain ⟨j, hj, hg2, hv, hfilt⟩ := rejectionDraw_eq _ _ _ _ hdraw
    have hm2 : g2.m = 2 ^ k := by rw [hg2, LCG.iter_m]; exact hm
    have ha2 : g2.a % 4 = 1 := by rw [hg2, LCG.iter_a]; exact ha
    have hc2 : g2.c % 2 = 1 := by rw [hg2, LCG.iter_c]; exact hc
    have hx2 : g2.x < g2.m := by
      rw [hg2, LCG.iter_m]
      refine lcg_iter_x_lt ?_ j
      rw [hm]
      exact Nat.pos_pow_of_pos _ (by omega)
    obtain ⟨n2, hrun2, hlen2, hlast2⟩ := ih g2 (i + 1 + 0) hm2 ha2 hc2 hx2 (by omega)
    refine ⟨(j+1) + n2, ?_, ?_, ?_⟩
    · have hstep : random100Run bs sb eb 0 (c+1+1) i g
          = (random100Run bs sb eb 0 (c+1) (i + 1 + 0) g2).map
              (fun l => chosenOffset bs sb v :: l) := by
        rw [random100Run, if_neg hine, hdraw]
      rw [hstep, hrun2, Option.map_some']
      rw [lcgOutputs_add g (j+1) n2, List.filter_append, hfilt, ← hg2]
      rw [List.singleton_append, List.map_cons]
    · rw [lcgOutputs_add g (j+1) n2, List.filter_append, hfilt, ← hg2,
        List.length_append, hlen2]
      simp only [List.length_singleton]
      omega
    · rcases hlast2 with h0 | hacc
      · right
        rw [h0, Nat.add_zero, ← hg2, ← hv]
        exact rejectionDraw_lt hdraw
      · right
        rw [LCG.iter_add, ← hg2]
        exact hacc

theorem random100_perm (bs sb eb : Nat) (heb : 1 ≤ eb) (g : LCG)
    (hm : g.m = nextPowerOfTwo eb) (ha : g.a % 4 = 1) (hc : g.c % 2 = 1)
    (hx : g.x < g.m) :
    ∃ l, random100Run bs sb eb 0 (eb+1) 0 g = some l ∧ l.length = eb ∧
      l.Perm ((List.range eb).map (chosenOffset bs sb)) := by
  obtain ⟨k, hk⟩ := nextPowerOfTwo_pow eb
  have hm2 : g.m = 2 ^ k := by rw [hm, hk]
  have hL : eb ≤ 2 ^ k := by rw [← hk]; exact le_nextPowerOfTwo eb
  obtain ⟨n, hrun, hlen, hlast⟩ :=
    random100Run_spec bs sb heb eb g 0 hm2 ha hc hx (by omega)
  have hfull := lcg_filter_perm hm2 ha hc hx hL
  have hfullLen : ((lcgOutputs g (2 ^ k)).filter (fun w => decide (w < eb))).length = eb := by
    rw [hfull.length_eq, List.length_range]
  rcases le_or_lt n (2 ^ k) with hn | hn
  · obtain ⟨r, hr⟩ : ∃ r, 2 ^ k = n + r := ⟨2 ^ k - n, by omega⟩
    have hsplit : (lcgOutputs g (2 ^ k)).filter (fun w => decide (w < eb))
        = (lcgOutputs g n).filter (fun w => decide (w < eb))
          ++ (lcgOutputs (g.iter n) r).filter (fun w => decide (w < eb)) := by
      rw [hr, lcgOutputs_add, List.filter_append]
    have hrest : ((lcgOutputs (g.iter n) r).filter (fun w => decide (w < eb))).length = 0 := by
      have hlens := congrArg List.length hsplit
      rw [hfullLen, List.length_append, hlen] at hlens
      omega
    have hFeq : (lcgOutputs g (2 ^ k)).filter (fun w => decide (w < eb))
        = (lcgOutputs g n).filter (fun w => decide (w < eb)) := by
      rw [hsplit, List.length_eq_zero.mp hrest, List.append_nil]
    refine ⟨_, hrun, ?_, ?_⟩
    · rw [List.length_map, hlen]
    · refine List.Perm.map (chosenOffset bs sb) ?_
      rw [← hFeq]
      exact hfull
  · exfalso
    rcases hlast with h0 | hacc
    · omega
    · obtain ⟨r, hr⟩ : ∃ r, n = 2 ^ k + (r + 1) := ⟨n - 2 ^ k - 1, by omega⟩
      have hsplit : (lcgOutputs g n).filter (fun w => decide (w < eb))
          = (lcgOutputs g (2 ^ k)).filter (fun w => decide (w < eb))
            ++ (lcgOutputs (g.iter (2 ^ k)) (r + 1)).filter (fun w => decide (w < eb)) := by
        rw [hr, lcgOutputs_add, List.filter_append]
      have hrest : ((lcgOutputs (g.iter (2 ^ k)) (r + 1)).filter
          (fun w => decide (w < eb))).length = 0 := by
        have hlens := congrArg List.length hsplit
        rw [hlen, List.length_append, hfullLen] at hlens
        omega
      have hmem : (g.iter n).x ∈ lcgOutputs (g.iter (2 ^ k)) (r + 1) := by
        unfold lcgOutputs
        rw [List.mem_map]
        refine ⟨r, by rw [List.mem_range]; omega, ?_⟩
        rw [← LCG.iter_add, ← hr]
      have hmemf : (g.iter n).x ∈ (lcgOutputs (g.iter (2 ^ k)) (r + 1)).filter
          (fun w => decide (w < eb)) :=
        List.mem_filter.mpr ⟨hmem, by simpa using hacc⟩
      rw [List.length_eq_zero.mp hrest] at hmemf
      exact List.not_mem_nil _ hmemf

/-! ### SequentialReverse with no skip never underflows -/

theorem nat_mul_sub (a b c : Nat) : a * (b - c) = a * b - a * c :=
  Nat.mul_sub_left_distrib a b c

theorem seqRev_some_aux {bs sb eb : Nat} (hbs : 0 < bs) (hsb : sb < eb) :
    ∀ (fuel iters : Nat), iters ≤ eb - 1 - sb → eb - 1 - sb - iters < fuel →
      ∃ l, sequentialReverseRun bs sb eb 0 fuel iters = some l := by
  intro fuel
  induction fuel with
  | zero =>
    intro iters _ h
    omega
  | succ f ih =>
    intro iters hiters hfuel
    have hguard : bs * iters ≤ bs * (eb - 1) :=
      Nat.mul_le_mul_left bs (by omega)
    have hoff : bs * (eb - 1) - bs * iters = bs * (eb - 1 - iters) :=
      (nat_mul_sub bs (eb - 1) iters).symm
    rcases Nat.eq_or_lt_of_le hiters with heq | hlt
    · refine ⟨[], ?_⟩
      rw [sequentialReverseRun, if_pos hguard]
      have hbreak : bs * (eb - 1) - bs * iters ≤ sb * bs := by
        rw [hoff, heq, show eb - 1 - (eb - 1 - sb) = sb by omega]
        exact le_of_eq (Nat.mul_comm bs sb)
      rw [if_pos hbreak]
    · have hnobreak : ¬ (bs * (eb - 1) - bs * iters ≤ sb * bs) := by
        rw [hoff, Nat.mul_comm sb bs]
        have h1 : bs * (sb + 1) ≤ bs * (eb - 1 - iters) :=
          Nat.mul_le_mul_left bs (by omega)
        rw [Nat.mul_succ] at h1
        intro hle
        omega
      obtain ⟨l, hl⟩ := ih (iters + 1 + 0) (by omega) (by omega)
      refine ⟨(bs * (eb - 1) - bs * iters) :: l, ?_⟩
      rw [sequentialReverseRun, if_pos hguard, if_neg hnobreak, hl]
      rfl

/-! ### xor_scramble stays in bounds and fixes the all-zero buffer -/

theorem foldl_bind_some (P : List Nat → Prop) (f : Nat → List Nat → Option (List Nat)) :
    ∀ (l : List Nat) (d : List Nat), P d →
      (∀ x ∈ l, ∀ e, P e → ∃ e2, f x e = some e2 ∧ P e2) →
      ∃ d2, l.foldl (fun acc y => acc.bind (f y)) (some d) = some d2 ∧ P d2 := by
  intro l
  induction l with
  | nil =>
    intro d hd _
    exact ⟨d, rfl, hd⟩
  | cons x xs ih =>
    intro d hd h
    obtain ⟨e2, he, hp⟩ := h x (List.mem_cons_self x xs) d hd
    have hbind : (some d).bind (f x) = some e2 := by
      show f x d = some e2
      exact he
    rw [List.foldl_cons, hbind]
    exact ih e2 hp (fun y hy => h y (List.mem_cons_of_mem x hy))

theorem page_offset_lt {ps bs : Nat} (hps : 0 < ps) (hdvd : ps ∣ bs) {x : Nat}
    (hx : x < bs / ps) (off : Nat) : (off &&& (ps - 1)) + x * ps < bs := by
  have hand : off &&& (ps - 1) ≤ ps - 1 := Nat.and_le_right
  have hq : bs / ps * ps = bs := Nat.div_mul_cancel hdvd
  have hmul : (x + 1) * ps ≤ bs / ps * ps :=
    Nat.mul_le_mul_right ps (by omega : x + 1 ≤ bs / ps)
  rw [Nat.add_mul, Nat.one_mul] at hmul
  omega

theorem replicate_set_zero : ∀ (n i : Nat),
    (List.replicate n (0 : Nat)).set i 0 = List.replicate n 0
  | 0, _ => rfl
  | n+1, 0 => by
    rw [List.replicate_succ, List.set_cons_zero]
  | n+1, i+1 => by
    rw [List.replicate_succ, List.set_cons_succ, replicate_set_zero n i,
      ← List.replicate_succ]

theorem replicate_getElem? {n i : Nat} (h : i < n) :
    (List.replicate n (0 : Nat))[i]? = some 0 := by
  rw [List.getElem?_eq_getElem (by simpa using h)]
  rw [List.getElem_replicate]

theorem xorPage_some {offset ps pOff : Nat} {d : List Nat}
    (h1 : (offset &&& (ps - 1)) + pOff < d.length)
    (h2 : ((offset + 1) &&& (ps - 1)) + pOff < d.length) :
    ∃ d2, xorPage offset ps pOff d = some d2 ∧ d2.length = d.length := by
  unfold xorPage
  rw [List.getElem?_eq_getElem h1, List.getElem?_eq_getElem h2]
  exact ⟨_, rfl, by rw [List.length_set]⟩

theorem xorPage_replicate_zero {offset ps pOff bs : Nat}
    (h1 : (offset &&& (ps - 1)) + pOff < bs)
    (h2 : ((offset + 1) &&& (ps - 1)) + pOff < bs) :
    xorPage offset ps pOff (List.replicate bs 0) = some (List.replicate bs 0) := by
  unfold xorPage
  rw [replicate_getElem? (by simpa using h1), replicate_getElem? (by simpa using h2)]
  show some ((List.replicate bs 0).set _ (0 ^^^ 0)) = _
  rw [Nat.zero_xor, replicate_set_zero]

/-! ### The per-target write loop stops at the first failing target -/

theorem writeTargets_prefix_fail {ε : Type} (seekRes writeRes : Nat → Except ε Unit)
    (t : Nat) (e : ε) :
    ∀ (pre rest : List Nat),
      (∀ u ∈ pre, seekRes u = Except.ok () ∧ writeRes u = Except.ok ()) →
      (seekRes t = Except.error e ∨
        (seekRes t = Except.ok () ∧ writeRes t = Except.error e)) →
      writeTargets seekRes writeRes (pre ++ t :: rest) = (pre, Except.error e)
      ∨ writeTargets seekRes writeRes (pre ++ t :: rest) = (pre ++ [t], Except.error e) := by
  intro pre
  induction pre with
  | nil =>
    intro rest _ hfail
    rcases hfail with hseek | ⟨hseek, hwrite⟩
    · left
      simp [writeTargets, hseek]
    · right
      simp [writeTargets, hseek, hwrite]
  | cons u us ih =>
    intro rest hok hfail
    obtain ⟨hs, hw⟩ := hok u (List.mem_cons_self u us)
    rcases ih rest (fun y hy => hok y (List.mem_cons_of_mem u hy)) hfail with h | h
    · left
      simp [writeTargets, hs, hw, h]
    · right
      simp [writeTargets, hs, hw, h]

/-! ### Watchdog timestamp bookkeeping -/

theorem lastTimestamp_zero (upd : Nat → Bool) : lastTimestamp upd 0 = 0 := by
  show (if upd 0 then 0 else 0) = 0
  exact ite_self 0

theorem lastTimestamp_succ (upd : Nat → Bool) (t : Nat) :
    lastTimestamp upd (t+1) = if upd (t+1) then t+1 else lastTimestamp upd t := by
  unfold lastTimestamp
  rw [List.range_succ, List.foldl_append]
  rfl

theorem lastTimestamp_eq_self {upd : Nat → Bool} {t : Nat} (h : upd t = true) :
    lastTimestamp upd t = t := by
  cases t with
  | zero => exact lastTimestamp_zero upd
  | succ s => rw [lastTimestamp_succ, if_pos h]

theorem lastTimestamp_of_no_later {upd : Nat → Bool} {u : Nat} (hu : upd u = true)
    (hafter : ∀ j, u < j → upd j = false) :
    ∀ t, u ≤ t → lastTimestamp upd t = u := by
  intro t
  induction t with
  | zero =>
    intro ht
    rw [lastTimestamp_zero]
    omega
  | succ s ih =>
    intro ht
    rcases Nat.eq_or_lt_of_le ht with heq | hlt
    · rw [heq] at hu
      rw [lastTimestamp_eq_self hu, heq]
    · have hf : upd (s+1) = false := hafter (s+1) (by omega)
      rw [lastTimestamp_succ, hf]
      simp only [Bool.false_eq_true, if_false]
      exact ih (by omega)

/-! ### Claim theorems -/

/-- Claim C1: for every range length L >= 1, the LCG over modulus
M = nextPowerOfTwo L (the smallest power of two at least L), with full-period
constants (multiplier 1 mod 4, odd increment) and seed below M, restricted by
rejection to values below L, produces each integer in [0, L) exactly once over
exactly L accepted draws within one full period, before any value repeats. -/
theorem c1_full_period_rejection {L : Nat} (_hL : 1 ≤ L) (g : LCG)
    (hm : g.m = nextPowerOfTwo L) (ha : g.a % 4 = 1) (hc : g.c % 2 = 1)
    (hx : g.x < g.m) :
    ((lcgOutputs g (nextPowerOfTwo L)).filter (fun w => decide (w < L))).Perm (List.range L)
    ∧ ((lcgOutputs g (nextPowerOfTwo L)).filter (fun w => decide (w < L))).length = L
    ∧ ∀ v, v < L →
        ((lcgOutputs g (nextPowerOfTwo L)).filter (fun w => decide (w < L))).count v = 1 := by
  obtain ⟨k, hk⟩ := nextPowerOfTwo_pow L
  have hm2 : g.m = 2 ^ k := by rw [hm, hk]
  have hL2 : L ≤ 2 ^ k := by rw [← hk]; exact le_nextPowerOfTwo L
  have hperm := lcg_filter_perm hm2 ha hc hx hL2
  rw [hk]
  refine ⟨hperm, ?_, ?_⟩
  · rw [hperm.length_eq, List.length_range]
  · intro v hv
    have hnodup : ((lcgOutputs g (2 ^ k)).filter (fun w => decide (w < L))).Nodup :=
      (lcgOutputs_nodup hm2 ha hc hx).filter _
    have hmem : v ∈ (lcgOutputs g (2 ^ k)).filter (fun w => decide (w < L)) :=
      hperm.mem_iff.mpr (by rw [List.mem_range]; exact hv)
    exact List.count_eq_one_of_mem hnodup hmem

/-- Witness for C1 at L = 3 (modulus 4), generator a = 5, c = 1, seed 2. -/
theorem c1_witness :
    (1 ≤ 3) ∧
    (((lcgOutputs ⟨2, 5, 1, 4⟩ (nextPowerOfTwo 3)).filter (fun w => decide (w < 3))).Perm
        (List.range 3)
      ∧ ((lcgOutputs ⟨2, 5, 1, 4⟩ (nextPowerOfTwo 3)).filter (fun w => decide (w < 3))).length = 3
      ∧ ∀ v, v < 3 →
          ((lcgOutputs ⟨2, 5, 1, 4⟩ (nextPowerOfTwo 3)).filter (fun w => decide (w < 3))).count v
            = 1) :=
  ⟨by omega,
    c1_full_period_rejection (by omega) ⟨2, 5, 1, 4⟩ (by decide) (by decide) (by decide)
      (by decide)⟩

/-- Counterexample to C2 as stated: with start_block = 2, end_block = 5 the
generator modulus is nextPowerOfTwo (5 - 2) = 4, the seed 2 lies in
[start_block, end_block) as drawn at src/main.rs:261, and the first accepted
draw is 3, which is not below end_block - start_block = 3; its chosen offset
2560 = (2 + 3) * 512 is not below end_block * blocksize = 2560. -/
theorem c2_counterexample :
    nextPowerOfTwo (5 - 2) = 4
    ∧ rejectionDraw 5 4 ⟨2, 5, 1, 4⟩ = some (3, ⟨3, 5, 1, 4⟩)
    ∧ ¬ (3 < 5 - 2)
    ∧ chosenOffset 512 2 3 = 2560
    ∧ ¬ (chosenOffset 512 2 3 < 5 * 512) := by decide

/-- Claim C2 (amended): every index accepted by the Random100 rejection loop
lies below end_block (the code rejects values >= end_block, not values >=
end_block - start_block), and the chosen offset (start_block + index) *
blocksize therefore lies in [start_block * blocksize,
(start_block + end_block) * blocksize); only when start_block = 0 does the
accepted index lie below end_block - start_block with the offset below
end_block * blocksize. -/
theorem c2_rejection_bounds {eb fuel bs sb v : Nat} {g g2 : LCG}
    (h : rejectionDraw eb fuel g = some (v, g2)) (hbs : 0 < bs) :
    v < eb
    ∧ sb * bs ≤ chosenOffset bs sb v
    ∧ chosenOffset bs sb v < (sb + eb) * bs
    ∧ (sb = 0 → v < eb - sb ∧ chosenOffset bs sb v < eb * bs) := by
  have hv := rejectionDraw_lt h
  have hmul : v * bs < eb * bs := mul_lt_mul_of_pos_right hv hbs
  have hadd : (sb + eb) * bs = sb * bs + eb * bs := Nat.add_mul sb eb bs
  refine ⟨hv, ?_, ?_, ?_⟩
  · unfold chosenOffset
    omega
  · unfold chosenOffset
    omega
  · intro h0
    subst h0
    unfold chosenOffset
    omega

/-- Witness for C2 (amended) at end_block = 7, modulus 8, generator a = 5,
c = 3, seed 4, blocksize 512, start_block 0: the accepted draw is 6. -/
theorem c2_witness :
    rejectionDraw 7 8 (⟨4, 5, 3, 8⟩ : LCG) = some (6, ⟨6, 5, 3, 8⟩)
    ∧ (6 < 7
      ∧ 0 * 512 ≤ chosenOffset 512 0 6
      ∧ chosenOffset 512 0 6 < (0 + 7) * 512
      ∧ ((0:Nat) = 0 → 6 < 7 - 0 ∧ chosenOffset 512 0 6 < 7 * 512)) :=
  have h : rejectionDraw 7 8 (⟨4, 5, 3, 8⟩ : LCG) = some (6, ⟨6, 5, 3, 8⟩) := by decide
  ⟨h, c2_rejection_bounds h (by decide)⟩

/-- Counterexample to C3 as stated: with start_block = 2, end_block = 5,
skipInterval = 0 and the in-range seed 2, the Random100 loop performs five
iterations (it stops when the counter reaches end_block = 5), not
end_block - start_block = 3, and the offset 2560 repeats. -/
theorem c3_counterexample :
    nextPowerOfTwo (5 - 2) = 4
    ∧ random100Run 512 2 5 0 10 0 ⟨2, 5, 1, 4⟩ = some [2560, 1024, 1536, 2048, 2560]
    ∧ ([2560, 1024, 1536, 2048, 2560] : List Nat).length ≠ 5 - 2 := by decide

/-- Claim C3 (amended): the Random100 loop stops when the iteration counter
reaches end_block (which equals end_block - start_block only when
start_block = 0); with start_block = 0 and skipInterval = 0 the run performs
exactly end_block iterations and the produced offsets are a permutation of
the end_block block offsets v * blocksize for v in [0, end_block) — in
particular each block is visited exactly once, and for end_block = 7 exactly
7 distinct offsets are produced before the loop stops. -/
theorem c3_random100_full_coverage {bs eb : Nat} (heb : 1 ≤ eb) (g : LCG)
    (hm : g.m = nextPowerOfTwo (eb - 0)) (ha : g.a % 4 = 1) (hc : g.c % 2 = 1)
    (hx : g.x < g.m) :
    ∃ l, random100Run bs 0 eb 0 (eb+1) 0 g = some l ∧ l.length = eb ∧
      l.Perm ((List.range eb).map (chosenOffset bs 0)) :=
  random100_perm bs 0 eb heb g (by simpa using hm) ha hc hx

/-- Witness for C3 (amended) at end_block = 7 (modulus 8), blocksize 512,
generator a = 5, c = 3, seed 4. -/
theorem c3_witness :
    (1 ≤ 7) ∧
    ∃ l, random100Run 512 0 7 0 (7+1) 0 ⟨4, 5, 3, 8⟩ = some l ∧ l.length = 7 ∧
      l.Perm ((List.range 7).map (chosenOffset 512 0)) :=
  ⟨by omega,
    c3_random100_full_coverage (by omega) ⟨4, 5, 3, 8⟩ (by decide) (by decide) (by decide)
      (by decide)⟩

/-- Counterexample to C4 as stated: Sequential mode with start_block = 0,
end_block = 4, blocksize = 512, skipInterval = 0 does not produce exactly
0, 512, 1024, 1536: the stop test at src/main.rs:283 is strict (break only
when the offset exceeds end_block * blocksize), so offset 2048 is written
as well. -/
theorem c4_counterexample : sequentialRun 512 0 4 0 10 0 ≠ some [0, 512, 1024, 1536] := by
  decide

/-- Claim C4 (amended): Sequential mode with start_block = 0, end_block = 4,
blocksize = 512, skipInterval = 0 writes offsets 0, 512, 1024, 1536, 2048 in
that order (one write past the claimed range, at end_block * blocksize) and
then stops, for any remaining fuel. -/
theorem c4_sequential_run (fuel : Nat) :
    sequentialRun 512 0 4 0 (fuel + 6) 0 = some [0, 512, 1024, 1536, 2048] := rfl

/-- Counterexample to C5 as stated: SequentialReverse mode with
start_block = 0, end_block = 4, blocksize = 512, skipInterval = 0 does not
produce 1536, 1024, 512, 0: the break at src/main.rs:289-291 fires when the
offset is at most start_block * blocksize, before the write, so offset 0 is
never written. -/
theorem c5_counterexample :
    sequentialReverseRun 512 0 4 0 10 0 ≠ some [1536, 1024, 512, 0] := by decide

/-- Claim C5 (amended): SequentialReverse mode with start_block = 0,
end_block = 4, blocksize = 512, skipInterval = 0 writes offsets 1536, 1024,
512 in that order and then stops (block 0, the start block, is never
written), for any remaining fuel. -/
theorem c5_sequential_reverse_run (fuel : Nat) :
    sequentialReverseRun 512 0 4 0 (fuel + 4) 0 = some [1536, 1024, 512] := rfl

/-- Claim C6: for every blockSize that is a power of two and every pageSize
that is either 0 or a power of two dividing blockSize, xor_scramble applied
to an all-zero buffer of blockSize bytes leaves it unchanged (and in
particular panics on no index), for every iteration counter value. -/
theorem c6_zero_buffer_fixed (bs ps offset : Nat)
    (hbs : ∃ k, bs = 2 ^ k)
    (hps : ps = 0 ∨ ((∃ j, ps = 2 ^ j) ∧ ps ∣ bs)) :
    xor_scramble (List.replicate bs 0) ps offset = some (List.replicate bs 0) := by
  obtain ⟨k, hk⟩ := hbs
  have hbpos : 0 < bs := by
    rw [hk]
    exact Nat.pos_pow_of_pos _ (by omega)
  rcases hps with h0 | hpow
  · subst h0
    unfold xor_scramble
    rw [if_neg (by simp)]
    simp only [List.length_replicate]
    have h1 : offset &&& (bs - 1) < bs := by
      have h := (Nat.and_le_right : offset &&& (bs - 1) ≤ bs - 1)
      omega
    have h2 : (offset + 1) &&& (bs - 1) < bs := by
      have h := (Nat.and_le_right : (offset + 1) &&& (bs - 1) ≤ bs - 1)
      omega
    rw [replicate_getElem? h1, replicate_getElem? h2]
    show some ((List.replicate bs 0).set (offset &&& (bs - 1)) (0 ^^^ 0)) = _
    rw [Nat.zero_xor, replicate_set_zero]
  · obtain ⟨⟨j, hj⟩, hdvd⟩ := hpow
    have hppos : 0 < ps := by
      rw [hj]
      exact Nat.pos_pow_of_pos _ (by omega)
    unfold xor_scramble
    rw [if_pos (by omega)]
    simp only [List.length_replicate]
    have hstep : ∀ pOff ∈ (List.range (bs / ps)).map (fun x => x * ps),
        ∀ d : List Nat, d = List.replicate bs 0 →
          ∃ d2, xorPage offset ps pOff d = some d2 ∧ d2 = List.replicate bs 0 := by
      intro pOff hmem d hd
      subst hd
      rw [List.mem_map] at hmem
      obtain ⟨x, hx, rfl⟩ := hmem
      rw [List.mem_range] at hx
      exact ⟨List.replicate bs 0,
        xorPage_replicate_zero (page_offset_lt hppos hdvd hx offset)
          (page_offset_lt hppos hdvd hx (offset + 1)), rfl⟩
    obtain ⟨d2, heq, hP⟩ := foldl_bind_some (fun d => d = List.replicate bs 0)
      (xorPage offset ps) ((List.range (bs / ps)).map (fun x => x * ps))
      (List.replicate bs 0) rfl hstep
    rw [heq, hP]

/-- Witness for C6 at blockSize 4, pageSize 2, iteration counter 5. -/
theorem c6_witness :
    ((∃ k, (4:Nat) = 2 ^ k) ∧ ((2:Nat) = 0 ∨ ((∃ j, (2:Nat) = 2 ^ j) ∧ 2 ∣ 4))) ∧
    xor_scramble (List.replicate 4 0) 2 5 = some (List.replicate 4 0) :=
  ⟨⟨⟨2, by decide⟩, Or.inr ⟨⟨1, by decide⟩, by decide⟩⟩,
    c6_zero_buffer_fixed 4 2 5 ⟨2, by decide⟩ (Or.inr ⟨⟨1, by decide⟩, by decide⟩)⟩

/-- Claim C9: for every buffer whose length is a power of two and every
pageSize that is either 0 or a power of two not exceeding the buffer length,
every index xor_scramble computes is strictly below the buffer length, so no
access is out of bounds (the result is some, never the out-of-bounds panic),
for any iteration counter value. -/
theorem c9_xor_scramble_in_bounds (data : List Nat) (ps offset : Nat)
    (hbs : ∃ k, data.length = 2 ^ k)
    (hps : ps = 0 ∨ ((∃ j, ps = 2 ^ j) ∧ ps ≤ data.length)) :
    ∃ d2, xor_scramble data ps offset = some d2 := by
  obtain ⟨k, hk⟩ := hbs
  have hlen1 : 0 < data.length := by
    rw [hk]
    exact Nat.pos_pow_of_pos _ (by omega)
  rcases hps with h0 | hpow
  · subst h0
    unfold xor_scramble
    rw [if_neg (by simp)]
    have h1 : offset &&& (data.length - 1) < data.length := by
      have h := (Nat.and_le_right : offset &&& (data.length - 1) ≤ data.length - 1)
      omega
    have h2 : (offset + 1) &&& (data.length - 1) < data.length := by
      have h := (Nat.and_le_right : (offset + 1) &&& (data.length - 1) ≤ data.length - 1)
      omega
    rw [List.getElem?_eq_getElem h1, List.getElem?_eq_getElem h2]
    exact ⟨_, rfl⟩
  · obtain ⟨⟨j, hj⟩, hle⟩ := hpow
    have hppos : 0 < ps := by
      rw [hj]
      exact Nat.pos_pow_of_pos _ (by omega)
    have hdvd : ps ∣ data.length := by
      have h2 : (2:Nat) ^ j ≤ 2 ^ k := by rw [← hj, ← hk]; exact hle
      rw [hj, hk]
      exact pow_dvd_pow 2 ((Nat.pow_le_pow_iff_right (by omega)).mp h2)
    unfold xor_scramble
    rw [if_pos (by omega)]
    have hstep : ∀ pOff ∈ (List.range (data.length / ps)).map (fun x => x * ps),
        ∀ d : List Nat, d.length = data.length →
          ∃ d2, xorPage offset ps pOff d = some d2 ∧ d2.length = data.length := by
      intro pOff hmem d hd
      rw [List.mem_map] at hmem
      obtain ⟨x, hx, rfl⟩ := hmem
      rw [List.mem_range] at hx
      have hb1 : (offset &&& (ps - 1)) + x * ps < d.length := by
        rw [hd]
        exact page_offset_lt hppos hdvd hx offset
      have hb2 : ((offset + 1) &&& (ps - 1)) + x * ps < d.length := by
        rw [hd]
        exact page_offset_lt hppos hdvd hx (offset + 1)
      obtain ⟨d2, hsome, hlen⟩ := xorPage_some hb1 hb2
      exact ⟨d2, hsome, by rw [hlen, hd]⟩
    obtain ⟨d2, heq, _⟩ := foldl_bind_some (fun d => d.length = data.length)
      (xorPage offset ps) ((List.range (data.length / ps)).map (fun x => x * ps))
      data rfl hstep
    exact ⟨d2, heq⟩

/-- Witness for C9 at buffer [5, 6, 7, 8], pageSize 2, iteration counter 3. -/
theorem c9_witness :
    ((∃ k, ([5, 6, 7, 8] : List Nat).length = 2 ^ k)
      ∧ ((2:Nat) = 0 ∨ ((∃ j, (2:Nat) = 2 ^ j) ∧ 2 ≤ ([5, 6, 7, 8] : List Nat).length))) ∧
    ∃ d2, xor_scramble [5, 6, 7, 8] 2 3 = some d2 :=
  ⟨⟨⟨2, by decide⟩, Or.inr ⟨⟨1, by decide⟩, by decide⟩⟩,
    c9_xor_scramble_in_bounds [5, 6, 7, 8] 2 3 ⟨2, by decide⟩
      (Or.inr ⟨⟨1, by decide⟩, by decide⟩)⟩

/-- Claim C7: if during the I/O loop the seek or the write to target t of
iteration c fails (all earlier targets of that iteration having succeeded)
and the loop has not yet stopped, then run_io returns exactly that error at
once: the loop's outcome is the error, no retry happens, and the only writes
issued from that iteration on are to targets 0, ..., t-1 and possibly the
failing attempt at t itself (none after it, and no later iteration runs). -/
theorem c7_io_failure_aborts {ε : Type} (seekRes writeRes : Nat → Nat → Except ε Unit)
    (nT bs sb eb skip fuel c t : Nat) (e : ε)
    (ht : t < nT)
    (hok : ∀ u, u < t → seekRes c u = Except.ok () ∧ writeRes c u = Except.ok ())
    (hfail : seekRes c t = Except.error e ∨
      (seekRes c t = Except.ok () ∧ writeRes c t = Except.error e))
    (hnobreak : ¬ (bs * c + sb * bs > eb * bs)) :
    (runIoLoop seekRes writeRes nT bs sb eb skip (fuel+1) c).2 = Except.error e
    ∧ ∃ n, n ≤ t + 1 ∧ (runIoLoop seekRes writeRes nT bs sb eb skip (fuel+1) c).1
        = (List.range n).map (fun u => (c, u)) := by
  obtain ⟨r, hr⟩ : ∃ r, nT = (t + 1) + r := ⟨nT - (t+1), by omega⟩
  have hdecomp : List.range nT = List.range t ++ t :: (List.range r).map ((t+1) + ·) := by
    rw [hr, List.range_add, List.range_succ, List.append_assoc, List.singleton_append]
  have hpre : ∀ u ∈ List.range t, seekRes c u = Except.ok () ∧ writeRes c u = Except.ok () := by
    intro u hu
    exact hok u (List.mem_range.mp hu)
  have hwt := writeTargets_prefix_fail (seekRes c) (writeRes c) t e (List.range t)
    ((List.range r).map ((t+1) + ·)) hpre hfail
  rw [← hdecomp] at hwt
  rcases hwt with h | h
  · refine ⟨?_, t, by omega, ?_⟩
    · rw [runIoLoop, if_neg hnobreak, h]
    · rw [runIoLoop, if_neg hnobreak, h]
  · refine ⟨?_, t + 1, by omega, ?_⟩
    · rw [runIoLoop, if_neg hnobreak, h]
    · rw [runIoLoop, if_neg hnobreak, h, List.range_succ]

/-- Witness for C7: three targets, the write to target 1 of iteration 0
fails; the loop returns that error and only targets 0 and 1 were written. -/
theorem c7_witness :
    ((1:Nat) < 3) ∧
    ((runIoLoop (fun _ _ => Except.ok ())
        (fun _ u => if u = 1 then Except.error "boom" else Except.ok ())
        3 512 0 4 0 (9+1) 0).2 = Except.error "boom"
      ∧ ∃ n, n ≤ 1 + 1 ∧
          (runIoLoop (fun _ _ => Except.ok ())
            (fun _ u => if u = 1 then Except.error "boom" else Except.ok ())
            3 512 0 4 0 (9+1) 0).1 = (List.range n).map (fun u => ((0:Nat), u))) :=
  ⟨by omega,
    c7_io_failure_aborts (fun _ _ => Except.ok ())
      (fun _ u => if u = 1 then Except.error "boom" else Except.ok ())
      3 512 0 4 0 9 0 1 "boom" (by omega)
      (fun u hu => ⟨rfl, by
        have h0 : u = 0 := by omega
        subst h0
        rfl⟩)
      (Or.inr ⟨rfl, rfl⟩) (by decide)⟩

/-- Claim C8: with pollInterval = 2 and timeout = 3 (in discrete time units),
if the shared LivenessTimestamp receives its last update at time u and is
never updated afterwards, some watchdog poll fires and the process is
terminated; if the timestamp is updated at least every time unit (here: at
every tick), no poll ever fires. -/
theorem c8_watchdog_terminates :
    (∀ (upd : Nat → Bool) (u : Nat), upd u = true → (∀ j, u < j → upd j = false) →
      ∃ t, watchdogFires upd 2 3 t = true)
    ∧ (∀ upd : Nat → Bool, (∀ j, upd j = true) → ∀ t, watchdogFires upd 2 3 t = false) := by
  constructor
  · intro upd u hu hafter
    refine ⟨2 * (u / 2) + 6, ?_⟩
    have hle : u ≤ 2 * (u / 2) + 6 := by omega
    have hlast : lastTimestamp upd (2 * (u / 2) + 6) = u :=
      lastTimestamp_of_no_later hu hafter _ hle
    unfold watchdogFires
    rw [hlast]
    have h1 : (2 * (u / 2) + 6) % 2 = 0 := by omega
    rw [h1]
    simp only [beq_self_eq_true, Bool.true_and, decide_eq_true_eq]
    omega
  · intro upd hupd t
    unfold watchdogFires
    rw [lastTimestamp_eq_self (hupd t)]
    simp

/-- Witness for C8: a timestamp updated only at time 0 triggers the watchdog;
a timestamp updated at every tick never does. -/
theorem c8_witness :
    ((fun j => j == 0) 0 = true
      ∧ ∃ t, watchdogFires (fun j => j == 0) 2 3 t = true)
    ∧ (∀ t, watchdogFires (fun _ => true) 2 3 t = false) :=
  ⟨⟨rfl, c8_watchdog_terminates.1 (fun j => j == 0) 0 rfl (fun j hj => by
      simp only [beq_eq_false_iff_ne, ne_eq]
      omega)⟩,
    c8_watchdog_terminates.2 (fun _ => true) (fun _ => rfl)⟩

/-- Counterexample to C10 as stated: with start_block = 0 < end_block = 4 and
skipInterval = 1, the iteration counter takes values 0, 2, 4; at counter 4
(> end_block - 1 = 3) the subtraction blocksize * (end_block - 1) -
blocksize * iterations is still evaluated and underflows (Rust u64 panic in
debug builds), modelled as none. -/
theorem c10_counterexample : sequentialReverseRun 512 0 4 1 10 0 = none := by decide

/-- Claim C10 (amended): in SequentialReverse mode with skipInterval = 0 and
start_block < end_block, the subtraction is evaluated only while the
iteration counter is at most end_block - 1, so the u64 subtraction never
underflows and the run completes (with skipInterval > 0 the counter can jump
past the stop window and underflow). -/
theorem c10_no_underflow_skip_zero (bs sb eb : Nat) (hbs : 0 < bs) (hsb : sb < eb) :
    ∃ l, sequentialReverseRun bs sb eb 0 (eb - sb) 0 = some l :=
  seqRev_some_aux hbs hsb (eb - sb) 0 (by omega) (by omega)

/-- Witness for C10 (amended) at blocksize 512, start_block 0, end_block 4. -/
theorem c10_witness :
    ((0:Nat) < 512 ∧ (0:Nat) < 4) ∧
    ∃ l, sequentialReverseRun 512 0 4 0 (4 - 0) 0 = some l :=
  ⟨⟨by omega, by omega⟩, c10_no_underflow_skip_zero 512 0 4 (by omega) (by omega)⟩

end Thermite

